import Mathlib

/-!
Verification of the MeetC2 text protocol: the command codec carried in a
calendar entry's summary line, the per-host output-block codec carried in its
description, the guest dispatcher's skip/execute decision, and the organizer
console's list/clear logic.  Strings are modelled as lists of characters and
the Go standard-library string operations used by the sources
(HasPrefix, HasSuffix, TrimSpace, TrimPrefix, TrimSuffix, SplitN, Fields,
Join, Split, Contains, ReplaceAll) are embedded as executable functions below.
Store and process I/O are external collaborators and appear only as oracle
parameters.
-/

/-- Strings as character lists. -/
abbrev Str := List Char

/-- Whitespace per Go's unicode.IsSpace, restricted to the ASCII range that the
protocol's texts use. -/
def isSpace (c : Char) : Bool :=
  c == ' ' || c == '\t' || c == '\n' || c == '\r' ||
  c == Char.ofNat 11 || c == Char.ofNat 12

/-- Left half of strings.TrimSpace. -/
def trimLeft (s : Str) : Str := s.dropWhile isSpace

/-- Right half of strings.TrimSpace. -/
def trimRight (s : Str) : Str := (s.reverse.dropWhile isSpace).reverse

/-- strings.TrimSpace. -/
def trimSpace (s : Str) : Str := trimRight (trimLeft s)

/-- strings.TrimPrefix: drop the leading occurrence of a marker, if present. -/
def trimPrefixStr (pre s : Str) : Str :=
  if List.isPrefixOf pre s then s.drop pre.length else s

/-- strings.TrimSuffix: drop the trailing occurrence of a marker, if present. -/
def trimSuffixStr (suf s : Str) : Str :=
  if List.isSuffixOf suf s then s.take (s.length - suf.length) else s

/-- strings.SplitN with limit 2 and a one-character separator: split at the
first occurrence of the separator, or report that none exists. -/
def splitOnce (sep : Char) : Str → Option (Str × Str)
  | [] => none
  | c :: rest =>
    if c == sep then some ([], rest)
    else
      match splitOnce sep rest with
      | none => none
      | some (a, b) => some (c :: a, b)

/-- Worker of strings.Fields: the first list is the remaining input, the
second accumulates the current whitespace-free run in reverse. -/
def fieldsAux : Str → Str → List Str
  | [], cur => if cur.isEmpty then [] else [cur.reverse]
  | c :: rest, cur =>
    if isSpace c then
      if cur.isEmpty then fieldsAux rest [] else cur.reverse :: fieldsAux rest []
    else fieldsAux rest (c :: cur)

/-- strings.Fields: the maximal whitespace-free runs of a string, in order. -/
def fields (s : Str) : List Str := fieldsAux s []

/-- strings.Join. -/
def joinStr (sep : Str) : List Str → Str
  | [] => []
  | [x] => x
  | x :: xs => x ++ sep ++ joinStr sep xs

/-- strings.Split with separator a single newline; empty segments are kept and
the empty string yields one empty line, exactly as in Go. -/
def splitLines : Str → List Str
  | [] => [[]]
  | '\n' :: rest => [] :: splitLines rest
  | c :: rest =>
    match splitLines rest with
    | [] => [[c]]
    | l :: ls => (c :: l) :: ls

/-- strings.ReplaceAll applied to the two-character sequence backslash-n,
rewriting each occurrence to a real newline (part_000 lines 201, 253, 293). -/
def unescapeNewlines : Str → Str
  | [] => []
  | '\\' :: 'n' :: rest => '\n' :: unescapeNewlines rest
  | c :: rest => c :: unescapeNewlines rest

/-- Go map insertion for string-keyed maps, modelled on association lists:
replace the value at an existing key, otherwise append the binding. -/
def upsert (k v : Str) : List (Str × Str) → List (Str × Str)
  | [] => [(k, v)]
  | (k', v') :: rest => if k' == k then (k, v) :: rest else (k', v') :: upsert k v rest

/-- The constant command-record marker, `commandPrefix` in guest.go line 101 and
the literal in part_000 lines 147 and 205. -/
def commandMarker : Str := ("Meeting from nobody:").data

/-- The opening characters of an output start marker. -/
def outMark : Str := ("[OUTPUT-").data

/-- The opening characters of an output end marker. -/
def endMark : Str := ("[/OUTPUT-").data

/-- The targeting spec of a command record: broadcast (no annotation),
wildcard (`@*:`), or a single named host (`@name:`). -/
inductive TargetSpec
  | Broadcast
  | Wildcard
  | Host (name : Str)
deriving DecidableEq

/-- The `@target:` text the organizer's operator types ahead of the command for
a non-broadcast target (part_000 lines 83-84); broadcast has no annotation. -/
def targetTag : TargetSpec → Str
  | .Broadcast => []
  | .Wildcard => '@' :: '*' :: ':' :: []
  | .Host n => '@' :: (n ++ (':' :: []))

/-- The command text as the organizer console assembles it (part_000 line 109):
the command token and argument tokens joined by single spaces. -/
def commandText (command : Str) (args : List Str) : Str :=
  joinStr (' ' :: []) (command :: args)

/-- CreateCommand's summary line (part_000 line 147): the constant marker, one
space, then the operator's command string. -/
def CreateCommandSummary (command : Str) : Str :=
  commandMarker ++ ' ' :: command

/-- The command codec's Encode: marker, space, optional target annotation, and
the space-joined command text. -/
def Encode (command : Str) (args : List Str) (t : TargetSpec) : Str :=
  CreateCommandSummary (targetTag t ++ commandText command args)

/-- The annotation parse of guest.go lines 162-175 applied to the trimmed
command line: the decoded target-host string (empty when no well-formed
annotation is present) and the remaining command text. -/
def parseCommandLine (commandLine : Str) : Str × Str :=
  if List.isPrefixOf ('@' :: []) commandLine then
    match splitOnce ':' commandLine with
    | some (p0, p1) => (trimPrefixStr ('@' :: []) p0, p1)
    | none => ([], commandLine)
  else ([], commandLine)

/-- The summary decode of guest.go lines 152-175: fail when the constant marker
is absent, otherwise trim the remainder and parse the optional annotation. -/
def parseSummary (summary : Str) : Option (Str × Str) :=
  if List.isPrefixOf commandMarker summary then
    some (parseCommandLine (trimSpace (trimPrefixStr commandMarker summary)))
  else none

/-- The abstraction from a decoded target-host string to the targeting spec:
empty means no (or an empty) annotation, `*` is the wildcard, anything else
names a host. -/
def targetOfHost (th : Str) : TargetSpec :=
  if th == [] then .Broadcast
  else if th == ('*' :: []) then .Wildcard
  else .Host th

/-- The decoded command record of a summary: the first whitespace-separated
token of the remaining text as the command (guest.go lines 176-181), the
following tokens as the arguments, and the interpreted target. -/
def decodeRecord (summary : Str) : Option (Str × List Str × TargetSpec) :=
  match parseSummary summary with
  | none => none
  | some (targetHost, actualCmd) =>
    let cmdParts := fields actualCmd
    some (cmdParts.headD [], cmdParts.tail, targetOfHost targetHost)

/-- The guest's skip test, guest.go line 171: skip when a non-empty decoded
target names neither the local hostname nor the wildcard. -/
def targetSkipped (targetHost hostname : Str) : Bool :=
  !(targetHost == []) && !(targetHost == hostname) && !(targetHost == ('*' :: []))

/-- The Targeting Resolver contract stated by the specification: broadcast and
wildcard always execute; a named host executes exactly on the host whose
identity is that name, compared character for character. -/
def ShouldExecute : TargetSpec → Str → Bool
  | .Broadcast, _ => true
  | .Wildcard, _ => true
  | .Host name, localHost => name == localHost

/-- strings.Contains: the first string occurs contiguously in the second. -/
def containsSub (sub : Str) : Str → Bool
  | [] => sub.isEmpty
  | c :: rest => List.isPrefixOf sub (c :: rest) || containsSub sub rest

/-- The guest's idempotence check, guest.go line 156: the description contains
the local host's start marker as a substring. -/
def hasBlock (description hostname : Str) : Bool :=
  containsSub (outMark ++ hostname ++ (']' :: [])) description

/-- The description rewrite of UpdateEventWithOutput, guest.go lines 261-262:
append a blank line, the start marker, the output verbatim, and the end
marker.  The store round trip around it is external. -/
def UpdateEventWithOutput (description hostname output : Str) : Str :=
  description ++ ('\n' :: '\n' :: []) ++ outMark ++ hostname ++ (']' :: '\n' :: []) ++
    output ++ ('\n' :: []) ++ endMark ++ hostname ++ (']' :: [])

/-- One entry of CheckAndExecute's per-event loop, guest.go lines 152-188, with
the executor's combined output abstracted as a parameter: returns whether the
entry was executed here and the resulting description text. -/
def CheckAndExecuteEntry (hostname summary description execOut : Str) : Bool × Str :=
  if !(List.isPrefixOf commandMarker summary) then (false, description)
  else if hasBlock description hostname then (false, description)
  else
    let parsed := parseCommandLine (trimSpace (trimPrefixStr commandMarker summary))
    if targetSkipped parsed.1 hostname then (false, description)
    else (true, UpdateEventWithOutput description hostname execOut)

/-- The output builder's append step in extractHostOutputs, part_000 lines
350-354: a newline separator is written only when the builder already holds
text. -/
def bodyStep (output line : Str) : Str :=
  if output.length > 0 then output ++ '\n' :: line else line

/-- Start-marker test of part_000 line 338, applied to the trimmed line. -/
def isStartLine (line : Str) : Bool :=
  List.isPrefixOf outMark (trimSpace line) && !(List.isPrefixOf endMark (trimSpace line))

/-- End-marker test of part_000 line 343, applied to the trimmed line. -/
def isEndLine (line : Str) : Bool :=
  List.isPrefixOf endMark (trimSpace line)

/-- The host name carried by a start-marker line, part_000 lines 339-340. -/
def markerHostOf (line : Str) : Str :=
  trimSuffixStr (']' :: []) (trimPrefixStr outMark (trimSpace line))

/-- The scanning loop of extractHostOutputs, part_000 lines 333-356, over the
split lines with the Go loop's mutable state (capturing flag, current host,
string builder, result map) passed explicitly. -/
def extractLoop : List Str → Bool → Str → Str → List (Str × Str) → List (Str × Str)
  | [], _, _, _, outputs => outputs
  | line :: rest, capturing, currentHost, output, outputs =>
    if isStartLine line then
      extractLoop rest true (markerHostOf line) [] outputs
    else if isEndLine line then
      extractLoop rest false [] output
        (if capturing && !(currentHost == []) then upsert currentHost output outputs
         else outputs)
    else if capturing then
      extractLoop rest true currentHost (bodyStep output line) outputs
    else
      extractLoop rest false currentHost output outputs

/-- extractHostOutputs, part_000 lines 325-358: the per-host output bodies of a
description. -/
def extractHostOutputs (description : Str) : List (Str × Str) :=
  extractLoop (splitLines description) false [] [] []

/-- The two explicit states of the specification's scanning machine for the
output codec: idle, or capturing a named host's body lines. -/
inductive ScanState
  | idle
  | capturing (host : Str) (bodyLines : List Str)

/-- The committed body of a list of captured lines: the lines joined by single
newlines, with any blank lines at the very start dropped; internal blank lines
and indentation are preserved verbatim. -/
def joinBody (ls : List Str) : Str :=
  joinStr ('\n' :: []) (ls.dropWhile (fun l => l.isEmpty))

/-- The ExtractAll two-state machine in the form the specification describes,
amended to what the source does at its two under-specified points: an
end-marker line commits the accumulated body regardless of the host name the
end marker itself carries (and only under a non-empty capturing host), and the
committed body drops blank lines at its very start. -/
def specScan : List Str → ScanState → List (Str × Str) → List (Str × Str)
  | [], _, acc => acc
  | line :: rest, st, acc =>
    if isStartLine line then
      specScan rest (.capturing (markerHostOf line) []) acc
    else if isEndLine line then
      match st with
      | .capturing h ls =>
        specScan rest .idle (if !(h == []) then upsert h (joinBody ls) acc else acc)
      | .idle => specScan rest .idle acc
    else
      match st with
      | .capturing h ls => specScan rest (.capturing h (ls ++ [line])) acc
      | .idle => specScan rest .idle acc

/-- ExtractAll per the amended specification machine. -/
def specExtractAll (description : Str) : List (Str × Str) :=
  specScan (splitLines description) .idle []

/-- The ExtractAll machine exactly as claim C2 states it: only an end-marker
line carrying the capturing host's own name commits, every other line while
capturing (a mismatched end marker included) is appended verbatim, and the
committed body is the captured lines joined by newlines with nothing
dropped. -/
def claimScan : List Str → ScanState → List (Str × Str) → List (Str × Str)
  | [], _, acc => acc
  | line :: rest, st, acc =>
    if isStartLine line then
      claimScan rest (.capturing (markerHostOf line) []) acc
    else
      match st with
      | .capturing h ls =>
        if trimSpace line == endMark ++ h ++ (']' :: []) then
          claimScan rest .idle (upsert h (joinStr ('\n' :: []) ls) acc)
        else
          claimScan rest (.capturing h (ls ++ [line])) acc
      | .idle => claimScan rest .idle acc

/-- ExtractAll exactly as claim C2 states it. -/
def claimExtractAll (description : Str) : List (Str × Str) :=
  claimScan (splitLines description) .idle []

/-- Each string of a list prefixed by a newline, concatenated; the tail shape
of a newline join. -/
def flatNl : List Str → Str
  | [] => []
  | l :: ls => ('\n' :: l) ++ flatNl ls

/-- getExecutedHosts, part_000 lines 312-323: the host name of every line that
begins with the start-marker opening and ends with a closing bracket, in
encounter order, no end marker required. -/
def getExecutedHosts (description : Str) : List Str :=
  (splitLines description).filterMap (fun line =>
    if List.isPrefixOf outMark line && List.isSuffixOf (']' :: []) line then
      some (trimSuffixStr (']' :: []) (trimPrefixStr outMark line))
    else none)

/-- The status column printed by ListEvents, part_000 lines 207-211. -/
def listStatus (description : Str) : Str :=
  let hosts := getExecutedHosts description
  if hosts.length > 0 then
    ("Executed (").data ++ joinStr (',' :: ' ' :: []) hosts ++ (')' :: [])
  else ("Pending").data

/-- A stored calendar entry as the console sees it. -/
structure CalEntry where
  uid : Str
  summary : Str
  description : Str
deriving DecidableEq

/-- ClearExecutedEvents, part_000 lines 270-310, over a store modelled as an
entry list with every delete succeeding: an entry is removed exactly when its
unescaped description lists at least one executed host, and the removals are
counted.  The summary is never consulted. -/
def ClearExecutedEvents : List CalEntry → List CalEntry × Nat
  | [] => ([], 0)
  | e :: rest =>
    let description := unescapeNewlines e.description
    let result := ClearExecutedEvents rest
    if (getExecutedHosts description).length > 0 then (result.1, result.2 + 1)
    else (e :: result.1, result.2)

/-- An ordinary calendar entry: no command marker in the summary, but a
marker-shaped description. -/
def noiseEntry : CalEntry :=
  { uid := ("uid1").data
    summary := ("Team standup").data
    description := ("[OUTPUT-x]\nhi\n[/OUTPUT-x]").data }

/-- A well-formed shell token: non-empty and free of whitespace. -/
def isToken (s : Str) : Bool :=
  !s.isEmpty && s.all (fun c => !isSpace c)

/-- Side condition on a host target for the command codec's round trip: the
name is non-empty, is not the wildcard, and contains no colon. -/
def hostOkB : TargetSpec → Bool
  | .Host n => !(n == []) && !(n == ('*' :: [])) && !(decide (':' ∈ n))
  | _ => true

/-- Side condition on a broadcast command for the round trip: a command line
that opens with an at-sign must contain no colon, else the decoder reads it as
an annotation. -/
def broadcastOkB (command : Str) (args : List Str) : TargetSpec → Bool
  | .Broadcast =>
    !(List.isPrefixOf ('@' :: []) command) || !(decide (':' ∈ commandText command args))
  | _ => true

/-- The standard base64 alphabet used by encoding/base64.StdEncoding. -/
def base64Chars : Str :=
  ("ABCDEFGHIJKLMNOPQRSTUVWXYZabcdefghijklmnopqrstuvwxyz0123456789+/").data

/-- The alphabet character of a six-bit value. -/
def b64Char (n : Nat) : Char := base64Chars.getD n 'A'

/-- encoding/base64.StdEncoding.EncodeToString over byte values: three input
bytes per four alphabet characters, with equals-sign padding. -/
def base64Encode : List Nat → Str
  | [] => []
  | [b1] => b64Char (b1 / 4) :: b64Char (b1 % 4 * 16) :: '=' :: '=' :: []
  | [b1, b2] =>
    b64Char (b1 / 4) :: b64Char (b1 % 4 * 16 + b2 / 16) ::
      b64Char (b2 % 16 * 4) :: '=' :: []
  | b1 :: b2 :: b3 :: rest =>
    b64Char (b1 / 4) :: b64Char (b1 % 4 * 16 + b2 / 16) ::
      b64Char (b2 % 16 * 4 + b3 / 64) :: b64Char (b3 % 64) :: base64Encode rest

/-- The guest's local collaborators, abstracted: identity, environment,
working directory, platform facts, file reads (error text or content bytes),
and the shell (optional error text plus combined output). -/
structure GuestEnv where
  hostname : Str
  getEnv : Str → Str
  cwd : Str
  goos : Str
  goarch : Str
  readFile : Str → Sum Str (List Nat)
  runShell : Str → Option Str × Str

/-- ExecuteCommand, guest.go lines 191-242: the special commands whoami, pwd,
upload and exit, and the shell fallback, all returning their result through
the one output string (the exit command's delayed self-removal is a process
effect outside this model). -/
def ExecuteCommand (g : GuestEnv) (command args : Str) : Str :=
  let hostInfo := ("[Host: ").data ++ g.hostname ++ (']' :: '\n' :: [])
  if command == ("whoami").data then
    let user0 := g.getEnv (("USER").data)
    let user1 := if user0 == [] then g.getEnv (("USERNAME").data) else user0
    let user := if user1 == [] then ("unknown").data else user1
    hostInfo ++ ("User: ").data ++ user ++ ("\nHostname: ").data ++ g.hostname ++
      ("\nOS: ").data ++ g.goos ++ ('/' :: []) ++ g.goarch
  else if command == ("pwd").data then
    hostInfo ++ g.cwd
  else if command == ("upload").data then
    let filepath := trimSpace args
    match g.readFile filepath with
    | .inl errMsg => hostInfo ++ ("Error: ").data ++ errMsg
    | .inr content =>
      hostInfo ++ ("File: ").data ++ filepath ++ ("\n[DATA]\n").data ++
        base64Encode content ++ ("\n[/DATA]").data
  else if command == ("exit").data then
    hostInfo ++ ("Terminating...").data
  else
    match g.runShell (command ++ ' ' :: args) with
    | (some errMsg, out) => hostInfo ++ ("Error: ").data ++ errMsg ++ '\n' :: out
    | (none, out) => hostInfo ++ out

/-- The upload behaviour exactly as claim C8 states it: the file read is named
by the FIRST argument token alone. -/
def uploadPerClaim (g : GuestEnv) (args : Str) : Str :=
  let hostInfo := ("[Host: ").data ++ g.hostname ++ (']' :: '\n' :: [])
  let filepath := (fields args).headD []
  match g.readFile filepath with
  | .inl errMsg => hostInfo ++ ("Error: ").data ++ errMsg
  | .inr content =>
    hostInfo ++ ("File: ").data ++ filepath ++ ("\n[DATA]\n").data ++
      base64Encode content ++ ("\n[/DATA]").data

/-- A concrete guest environment whose file system holds the single one-byte
file named by one letter a. -/
def gTest : GuestEnv :=
  { hostname := ('h' :: [])
    getEnv := fun _ => []
    cwd := []
    goos := ("linux").data
    goarch := ("amd64").data
    readFile := fun p =>
      if p == ('a' :: []) then .inr [104] else .inl (("no such file").data)
    runShell := fun _ => (none, []) }

/-! ## Helper lemmas about the embedded string operations -/

theorem isPre_append (l m : Str) : List.isPrefixOf l (l ++ m) = true := by
  simp [List.isPrefixOf_iff_prefix]

theorem trimPrefixStr_append (pre rest : Str) : trimPrefixStr pre (pre ++ rest) = rest := by
  simp [trimPrefixStr, isPre_append, List.drop_left]

theorem isSuf_append (l m : Str) : List.isSuffixOf l (m ++ l) = true := by
  simp [List.isSuffixOf_iff_suffix]

theorem trimSuffixStr_append (suf x : Str) : trimSuffixStr suf (x ++ suf) = x := by
  simp only [trimSuffixStr, isSuf_append, if_true]
  rw [List.length_append, Nat.add_sub_cancel]
  exact List.take_left x suf

theorem trimLeft_eq_self (s : Str) (h : ∀ c, s.head? = some c → isSpace c = false) :
    trimLeft s = s := by
  cases s with
  | nil => rfl
  | cons c rest => simp [trimLeft, List.dropWhile_cons, h c rfl]

theorem trimRight_eq_self (s : Str) (h : ∀ c, s.getLast? = some c → isSpace c = false) :
    trimRight s = s := by
  unfold trimRight
  cases hr : s.reverse with
  | nil =>
    have : s = [] := by simpa using congrArg List.reverse hr
    simp [this]
  | cons c rest =>
    have hc : s.getLast? = some c := by
      rw [← List.head?_reverse, hr]; rfl
    rw [List.dropWhile_cons_of_neg (by simp [h c hc])]
    rw [← hr, List.reverse_reverse]

theorem trimSpace_eq_self (s : Str)
    (h1 : ∀ c, s.head? = some c → isSpace c = false)
    (h2 : ∀ c, s.getLast? = some c → isSpace c = false) :
    trimSpace s = s := by
  rw [trimSpace, trimLeft_eq_self s h1, trimRight_eq_self s h2]

theorem trimSpace_space_cons (s : Str) : trimSpace (' ' :: s) = trimSpace s := by
  unfold trimSpace trimLeft
  rw [List.dropWhile_cons_of_pos (by decide)]

theorem splitOnce_not_mem (sep : Char) (s : Str) (h : sep ∉ s) : splitOnce sep s = none := by
  induction s with
  | nil => rfl
  | cons c rest ih =>
    have hc : (c == sep) = false := by
      simp only [beq_eq_false_iff_ne]
      intro hcc; exact h (hcc ▸ List.mem_cons_self c rest)
    have hr : splitOnce sep rest = none := ih (fun hm => h (List.mem_cons_of_mem c hm))
    simp [splitOnce, hc, hr]

theorem splitOnce_append (sep : Char) (a b : Str) (h : sep ∉ a) :
    splitOnce sep (a ++ sep :: b) = some (a, b) := by
  induction a with
  | nil => simp [splitOnce]
  | cons c a' ih =>
    have hc : (c == sep) = false := by
      simp only [beq_eq_false_iff_ne]
      intro hcc; exact h (hcc ▸ List.mem_cons_self c a')
    have hr := ih (fun hm => h (List.mem_cons_of_mem c hm))
    simp [splitOnce, hc, hr]

theorem fieldsAux_token (t : Str) (h : ∀ c ∈ t, isSpace c = false) :
    ∀ (s cur : Str), fieldsAux (t ++ s) cur = fieldsAux s (t.reverse ++ cur) := by
  induction t with
  | nil => intro s cur; simp
  | cons c t' ih =>
    intro s cur
    rw [List.cons_append, fieldsAux, if_neg (by simp [h c (List.mem_cons_self c t')])]
    rw [ih (fun d hd => h d (List.mem_cons_of_mem c hd)) s (c :: cur)]
    simp

theorem joinStr_nil (sep : Str) : joinStr sep [] = [] := rfl

theorem joinStr_single (sep x : Str) : joinStr sep [x] = x := rfl

theorem joinStr_cons2 (sep x y : Str) (ys : List Str) :
    joinStr sep (x :: y :: ys) = x ++ sep ++ joinStr sep (y :: ys) := rfl

theorem isToken_chars (t : Str) (h : isToken t = true) : ∀ c ∈ t, isSpace c = false := by
  intro c hc
  have := List.all_eq_true.mp ((Bool.and_eq_true_iff.mp h).2) c hc
  simpa using this

theorem isToken_ne_nil (t : Str) (h : isToken t = true) : t ≠ [] := by
  intro h0
  subst h0
  simp [isToken] at h

theorem fields_space_cons (c : Char) (s : Str) (h : isSpace c = true) :
    fields (c :: s) = fields s := by
  unfold fields
  rw [fieldsAux, if_pos h]
  rfl

theorem fields_token (t : Str) (h : isToken t = true) : fields t = [t] := by
  unfold fields
  have hstep := fieldsAux_token t (isToken_chars t h) [] []
  rw [List.append_nil] at hstep
  rw [hstep, fieldsAux]
  simp [isToken_ne_nil t h]

theorem fields_token_append (t s : Str) (h : isToken t = true) :
    fields (t ++ ' ' :: s) = t :: fields s := by
  unfold fields
  rw [fieldsAux_token t (isToken_chars t h) (' ' :: s) []]
  rw [fieldsAux, if_pos (by decide)]
  rw [if_neg (by simp [isToken_ne_nil t h])]
  simp

theorem fields_join (toks : List Str) (h : ∀ t ∈ toks, isToken t = true) :
    fields (joinStr (' ' :: []) toks) = toks := by
  induction toks with
  | nil => rfl
  | cons x rest ih =>
    cases rest with
    | nil =>
      rw [joinStr_single]
      exact fields_token x (h x (List.mem_cons_self x []))
    | cons y rest' =>
      have hx : isToken x = true := h x (List.mem_cons_self x (y :: rest'))
      have hrest : ∀ t ∈ y :: rest', isToken t = true :=
        fun t ht => h t (List.mem_cons_of_mem x ht)
      rw [joinStr_cons2, List.append_assoc, List.singleton_append]
      rw [fields_token_append x _ hx, ih hrest]

theorem joinStr_cons_shape (sep x : Str) (xs : List Str) :
    ∃ r, joinStr sep (x :: xs) = x ++ r := by
  cases xs with
  | nil => exact ⟨[], by simp [joinStr_single]⟩
  | cons y ys => exact ⟨sep ++ joinStr sep (y :: ys), by rw [joinStr_cons2, List.append_assoc]⟩

theorem token_getLast_nonspace (t : Str) (h : isToken t = true) :
    ∀ c, t.getLast? = some c → isSpace c = false := by
  intro c hc
  have hmem : c ∈ t := by
    have := List.mem_getLast?_eq_getLast (l := t) (x := c) hc
    exact this.choose_spec ▸ List.getLast_mem this.choose
  have := (List.all_eq_true.mp ((Bool.and_eq_true_iff.mp h).2) c hmem)
  simpa using this

theorem joinStr_tokens_ne_nil (sep x : Str) (xs : List Str) (hx : x ≠ []) :
    joinStr sep (x :: xs) ≠ [] := by
  obtain ⟨r, hr⟩ := joinStr_cons_shape sep x xs
  rw [hr]
  exact List.append_ne_nil_of_left_ne_nil hx r

theorem joinStr_tokens_getLast (toks : List Str) (h : ∀ t ∈ toks, isToken t = true) :
    ∀ c, (joinStr (' ' :: []) toks).getLast? = some c → isSpace c = false := by
  induction toks with
  | nil => intro c hc; simp [joinStr] at hc
  | cons x rest ih =>
    cases rest with
    | nil =>
      intro c hc
      exact token_getLast_nonspace x (h x (List.mem_cons_self x [])) c
        (by simpa [joinStr_single] using hc)
    | cons y rest' =>
      intro c hc
      have hrest : ∀ t ∈ y :: rest', isToken t = true :=
        fun t ht => h t (List.mem_cons_of_mem x ht)
      have hyne : y ≠ [] := by
        have := hrest y (List.mem_cons_self y rest')
        cases y with
        | nil => simp [isToken] at this
        | cons _ _ => simp
      have hne : joinStr (' ' :: []) (y :: rest') ≠ [] :=
        joinStr_tokens_ne_nil (' ' :: []) y rest' hyne
      rw [joinStr_cons2, List.getLast?_append, List.getLast?_append] at hc
      obtain ⟨d, hd⟩ : ∃ d, (joinStr (' ' :: []) (y :: rest')).getLast? = some d := by
        cases hgl : (joinStr (' ' :: []) (y :: rest')).getLast? with
        | none => exact absurd (List.getLast?_eq_none_iff.mp hgl) hne
        | some d => exact ⟨d, rfl⟩
      rw [hd] at hc
      simp only [Option.or_some] at hc
      exact ih hrest c (by rw [hd, ← hc])


theorem foldl_bodyStep_ne (ls : List Str) :
    ∀ acc : Str, acc ≠ [] → List.foldl bodyStep acc ls = acc ++ flatNl ls := by
  induction ls with
  | nil => intro acc _; simp [flatNl]
  | cons l ls ih =>
    intro acc hacc
    have hstep : bodyStep acc l = acc ++ '\n' :: l := by
      unfold bodyStep
      rw [if_pos (List.length_pos.mpr hacc)]
    rw [List.foldl_cons, hstep, ih _ (List.append_ne_nil_of_left_ne_nil hacc _)]
    rw [flatNl, List.append_assoc]

theorem joinStr_nl_flat (x : Str) (xs : List Str) :
    joinStr ('\n' :: []) (x :: xs) = x ++ flatNl xs := by
  induction xs generalizing x with
  | nil => simp [joinStr_single, flatNl]
  | cons y ys ih =>
    rw [joinStr_cons2, ih y, flatNl, List.append_assoc, List.singleton_append]
    rfl

theorem foldl_bodyStep_join (ls : List Str) :
    List.foldl bodyStep [] ls = joinBody ls := by
  induction ls with
  | nil => rfl
  | cons l ls ih =>
    by_cases hl : l = []
    · subst hl
      rw [List.foldl_cons]
      have hb : bodyStep [] [] = [] := rfl
      rw [hb, ih, joinBody, joinBody, List.dropWhile_cons_of_pos (by rfl)]
    · have hstep : bodyStep [] l = l := by
        unfold bodyStep
        simp
      rw [List.foldl_cons, hstep, foldl_bodyStep_ne ls l hl]
      rw [joinBody, List.dropWhile_cons_of_neg (by simpa using hl)]
      exact (joinStr_nl_flat l ls).symm

theorem extractLoop_cons (line : Str) (rest : List Str) (cap : Bool) (h out : Str)
    (acc : List (Str × Str)) :
    extractLoop (line :: rest) cap h out acc =
      if isStartLine line then extractLoop rest true (markerHostOf line) [] acc
      else if isEndLine line then
        extractLoop rest false [] out (if cap && !(h == []) then upsert h out acc else acc)
      else if cap then extractLoop rest true h (bodyStep out line) acc
      else extractLoop rest false h out acc := rfl

theorem specScan_cons (line : Str) (rest : List Str) (st : ScanState)
    (acc : List (Str × Str)) :
    specScan (line :: rest) st acc =
      if isStartLine line then specScan rest (.capturing (markerHostOf line) []) acc
      else if isEndLine line then
        match st with
        | .capturing h ls =>
          specScan rest .idle (if !(h == []) then upsert h (joinBody ls) acc else acc)
        | .idle => specScan rest .idle acc
      else
        match st with
        | .capturing h ls => specScan rest (.capturing h (ls ++ [line])) acc
        | .idle => specScan rest .idle acc := rfl

theorem extractLoop_eq_specScan (lines : List Str) :
    (∀ out acc, extractLoop lines false [] out acc = specScan lines .idle acc) ∧
    (∀ h ls acc, extractLoop lines true h (List.foldl bodyStep [] ls) acc =
      specScan lines (.capturing h ls) acc) := by
  induction lines with
  | nil => exact ⟨fun _ _ => rfl, fun _ _ _ => rfl⟩
  | cons line rest ih =>
    obtain ⟨ihA, ihB⟩ := ih
    by_cases hS : isStartLine line = true
    · constructor
      · intro out acc
        rw [extractLoop_cons, specScan_cons, if_pos hS, if_pos hS]
        exact ihB (markerHostOf line) [] acc
      · intro h ls acc
        rw [extractLoop_cons, specScan_cons, if_pos hS, if_pos hS]
        exact ihB (markerHostOf line) [] acc
    · by_cases hE : isEndLine line = true
      · constructor
        · intro out acc
          rw [extractLoop_cons, specScan_cons, if_neg hS, if_neg hS, if_pos hE, if_pos hE]
          simpa using ihA out acc
        · intro h ls acc
          rw [extractLoop_cons, specScan_cons, if_neg hS, if_neg hS, if_pos hE, if_pos hE]
          by_cases hh : h = []
          · subst hh
            simpa using ihA (List.foldl bodyStep [] ls) acc
          · have hbeq : (h == ([] : Str)) = false := beq_eq_false_iff_ne.mpr hh
            simp only [hbeq, Bool.not_false, Bool.true_and, Bool.and_true, if_true]
            rw [foldl_bodyStep_join ls]
            exact ihA _ _
      · constructor
        · intro out acc
          rw [extractLoop_cons, specScan_cons, if_neg hS, if_neg hS, if_neg hE, if_neg hE]
          simpa using ihA out acc
        · intro h ls acc
          rw [extractLoop_cons, specScan_cons, if_neg hS, if_neg hS, if_neg hE, if_neg hE]
          simp only [if_pos rfl]
          have hfold : bodyStep (List.foldl bodyStep [] ls) line =
              List.foldl bodyStep [] (ls ++ [line]) := by
            rw [List.foldl_append]
            rfl
          rw [hfold]
          exact ihB h (ls ++ [line]) acc

/-! ## Claim theorems -/

/-- C2 (counterexample): on a description whose capture for host alpha is
closed by an end marker naming the different host beta, the source's
extractHostOutputs nevertheless commits the body under alpha, while the
machine stated by the claim (which commits only on the matching end marker)
commits nothing; so the claim as stated is false on the code. -/
theorem extractAll_commits_mismatched_end :
    extractHostOutputs (("[OUTPUT-alpha]\nbody\n[/OUTPUT-beta]").data) =
      [(("alpha").data, ("body").data)] ∧
    claimExtractAll (("[OUTPUT-alpha]\nbody\n[/OUTPUT-beta]").data) = [] := by
  decide

/-- C2 (amended): for every description, extractHostOutputs coincides with the
specification's two-state machine amended at its two under-specified points —
any end-marker line (whatever host name it carries) commits the accumulated
body under the capturing host's key when that host name is non-empty, and the
committed body is the captured lines joined by single newlines with blank
lines at the very start dropped (internal blank lines and indentation are
preserved); a start marker resets the capture, and an end marker seen while
idle is ignored rather than being an error. -/
theorem extractAll_machine (description : Str) :
    extractHostOutputs description = specExtractAll description :=
  (extractLoop_eq_specScan (splitLines description)).1 [] []

/-- C4: for every entry and local host, if hasBlock holds of the description
and the local host — the host's start marker occurs anywhere as a substring,
with no requirement that the rest of the document decode — then the
dispatcher's per-entry pipeline performs no execution and returns the
description unchanged, so the set of output blocks is unchanged. -/
theorem pipeline_idempotent (hostname summary description execOut : Str)
    (h : hasBlock description hostname = true) :
    CheckAndExecuteEntry hostname summary description execOut = (false, description) ∧
    extractHostOutputs (CheckAndExecuteEntry hostname summary description execOut).2 =
      extractHostOutputs description := by
  have h1 : CheckAndExecuteEntry hostname summary description execOut = (false, description) := by
    unfold CheckAndExecuteEntry
    by_cases hp : List.isPrefixOf commandMarker summary
    · simp [hp, h]
    · simp [hp]
  exact ⟨h1, by rw [h1]⟩

/-- C4 (witness): a host that already has its output block recorded in the
description does not execute the entry again. -/
theorem pipeline_idempotent_witness :
    CheckAndExecuteEntry (("h1").data) (("Meeting from nobody: ls").data)
        (("[OUTPUT-h1]\nq\n[/OUTPUT-h1]").data) (("o").data) =
      (false, ("[OUTPUT-h1]\nq\n[/OUTPUT-h1]").data) :=
  (pipeline_idempotent (("h1").data) (("Meeting from nobody: ls").data)
    (("[OUTPUT-h1]\nq\n[/OUTPUT-h1]").data) (("o").data) (by decide)).1

/-- C5: for every decoded target-host string and every local host, the guest's
execute decision (the negation of its skip test) equals the specification's
ShouldExecute contract applied to the interpreted target: broadcast (no or
empty annotation) and the wildcard always execute, and a named host executes
exactly when the name equals the local host character for character, with no
normalization. -/
theorem targeting_correct (targetHost localHost : Str) :
    (!targetSkipped targetHost localHost) = ShouldExecute (targetOfHost targetHost) localHost := by
  unfold targetSkipped targetOfHost
  by_cases h1 : targetHost == ([] : Str)
  · simp [h1, ShouldExecute]
  · by_cases h2 : targetHost == ('*' :: [])
    · simp [h1, h2, ShouldExecute]
    · simp only [h1, h2, Bool.not_false, if_false, Bool.not_true]
      simp [ShouldExecute, Bool.eq_false_iff.mpr h1, Bool.eq_false_iff.mpr h2]

/-- C6: AppendBlock (the description rewrite of UpdateEventWithOutput) yields
exactly the old description followed by a blank separator line, the start
marker embedding the host, the body verbatim with no escaping, and the end
marker embedding the same host; in particular the old description survives
unmodified as a prefix, so no existing block is mutated or reordered. -/
theorem appendBlock_frame (description hostname output : Str) :
    UpdateEventWithOutput description hostname output =
      description ++ ('\n' :: '\n' :: []) ++ (outMark ++ hostname ++ (']' :: [])) ++
        ('\n' :: []) ++ output ++ ('\n' :: []) ++ (endMark ++ hostname ++ (']' :: [])) ∧
    description <+: UpdateEventWithOutput description hostname output := by
  constructor
  · unfold UpdateEventWithOutput
    simp [List.append_assoc]
  · unfold UpdateEventWithOutput
    simp only [List.append_assoc]
    exact List.prefix_append description _

/-- C3 (counterexample): an ordinary calendar entry whose summary lacks the
command marker but whose description happens to contain a marker-shaped line
is deleted by the clear operation, although the claim says entries lacking the
marker are transport noise and must be left untouched: the code never consults
the summary. -/
theorem clear_deletes_unmarked_entry :
    List.isPrefixOf commandMarker noiseEntry.summary = false ∧
    ClearExecutedEvents [noiseEntry] = ([], 1) := by
  decide

/-- C3 (amended): the clear operation deletes exactly those entries whose
unescaped description yields a non-empty ListExecutedHosts, with no regard to
whether the summary carries the command marker; entries with no recorded
execution are left untouched in order, and the reported count is the number
of deleted entries. -/
theorem clear_deletes_executed (entries : List CalEntry) :
    ClearExecutedEvents entries =
      (entries.filter (fun e => (getExecutedHosts (unescapeNewlines e.description)).isEmpty),
       entries.countP (fun e => !(getExecutedHosts (unescapeNewlines e.description)).isEmpty)) := by
  induction entries with
  | nil => rfl
  | cons e rest ih =>
    rw [ClearExecutedEvents, ih]
    by_cases h : getExecutedHosts (unescapeNewlines e.description) = []
    · simp [h, List.filter_cons, List.countP_cons]
    · have hlen : (getExecutedHosts (unescapeNewlines e.description)).length > 0 :=
        List.length_pos.mpr h
      simp [h, hlen, List.filter_cons, List.countP_cons, List.isEmpty_iff]

/-- C7: for every summary that carries the command marker and whose trimmed
remainder begins with an at-sign but contains no colon, the decode does not
fail: the whole remainder (at-sign included) becomes the command text, the
decoded target is Broadcast, and the given local host is not skipped, so
every host executes it. -/
theorem malformed_tag_broadcast (summary localHost : Str)
    (hpre : List.isPrefixOf commandMarker summary = true)
    (hat : List.isPrefixOf ('@' :: []) (trimSpace (trimPrefixStr commandMarker summary)) = true)
    (hnc : ':' ∉ trimSpace (trimPrefixStr commandMarker summary)) :
    parseSummary summary = some ([], trimSpace (trimPrefixStr commandMarker summary)) ∧
    decodeRecord summary =
      some ((fields (trimSpace (trimPrefixStr commandMarker summary))).headD [],
        (fields (trimSpace (trimPrefixStr commandMarker summary))).tail, .Broadcast) ∧
    targetSkipped [] localHost = false := by
  have hps : parseSummary summary =
      some ([], trimSpace (trimPrefixStr commandMarker summary)) := by
    unfold parseSummary parseCommandLine
    rw [if_pos hpre, if_pos hat, splitOnce_not_mem ':' _ hnc]
  refine ⟨hps, ?_, rfl⟩
  unfold decodeRecord
  rw [hps]
  rfl

/-- C7 (witness): a summary whose remainder is an at-sign annotation with no
colon separator decodes to a broadcast whose command text is the whole
remainder. -/
theorem malformed_tag_broadcast_witness :
    parseSummary (("Meeting from nobody: @host-no-colon x").data) =
      some ([], ("@host-no-colon x").data) ∧
    decodeRecord (("Meeting from nobody: @host-no-colon x").data) =
      some ((fields (("@host-no-colon x").data)).headD [],
        (fields (("@host-no-colon x").data)).tail, .Broadcast) ∧
    targetSkipped [] (("beta").data) = false := by
  have h := malformed_tag_broadcast (("Meeting from nobody: @host-no-colon x").data)
    (("beta").data) (by decide) (by decide) (by decide)
  simpa using h

/-- C10: an entry whose summary is the command marker followed by an
annotation with an empty host name decodes rather than being skipped: the
decoded target-host string is empty, the record's target is Broadcast, the
command is the text after the colon, and the per-entry pipeline executes it
on every local host (here against an empty description). -/
theorem empty_tag_broadcast (localHost cmdTail execOut : Str)
    (ht : trimSpace ('@' :: ':' :: cmdTail) = '@' :: ':' :: cmdTail) :
    parseSummary (commandMarker ++ ' ' :: '@' :: ':' :: cmdTail) = some ([], cmdTail) ∧
    decodeRecord (commandMarker ++ ' ' :: '@' :: ':' :: cmdTail) =
      some ((fields cmdTail).headD [], (fields cmdTail).tail, .Broadcast) ∧
    CheckAndExecuteEntry localHost (commandMarker ++ ' ' :: '@' :: ':' :: cmdTail) [] execOut =
      (true, UpdateEventWithOutput [] localHost execOut) := by
  have hline : trimSpace (trimPrefixStr commandMarker
      (commandMarker ++ ' ' :: '@' :: ':' :: cmdTail)) = '@' :: ':' :: cmdTail := by
    rw [show commandMarker ++ ' ' :: '@' :: ':' :: cmdTail =
      commandMarker ++ (' ' :: '@' :: ':' :: cmdTail) from rfl]
    rw [trimPrefixStr_append]
    rw [show (' ' :: '@' :: ':' :: cmdTail : Str) = ' ' :: ('@' :: ':' :: cmdTail) from rfl]
    rw [trimSpace_space_cons, ht]
  have hparse : parseCommandLine ('@' :: ':' :: cmdTail) = ([], cmdTail) := by
    unfold parseCommandLine
    rw [if_pos (by simp [List.isPrefixOf])]
    have hsplit : splitOnce ':' ('@' :: ':' :: cmdTail) = some ('@' :: [], cmdTail) := by
      unfold splitOnce
      rw [if_neg (by decide)]
      simp [splitOnce]
    rw [hsplit]
    rfl
  have hps : parseSummary (commandMarker ++ ' ' :: '@' :: ':' :: cmdTail) =
      some ([], cmdTail) := by
    unfold parseSummary
    rw [if_pos (isPre_append commandMarker _), hline, hparse]
  refine ⟨hps, ?_, ?_⟩
  · unfold decodeRecord
    rw [hps]
    rfl
  · unfold CheckAndExecuteEntry
    rw [hline, hparse]
    have hblock : hasBlock [] localHost = false := rfl
    rw [if_neg (by rw [isPre_append commandMarker _]; decide), hblock]
    rfl

/-- C10 (witness): the summary carrying an empty-host annotation executes on a
host named beta with the text after the colon as its command line. -/
theorem empty_tag_broadcast_witness :
    parseSummary (commandMarker ++ ' ' :: '@' :: ':' :: ("cmd arg").data) =
      some ([], ("cmd arg").data) ∧
    decodeRecord (commandMarker ++ ' ' :: '@' :: ':' :: ("cmd arg").data) =
      some ((fields (("cmd arg").data)).headD [], (fields (("cmd arg").data)).tail, .Broadcast) ∧
    CheckAndExecuteEntry (("beta").data)
        (commandMarker ++ ' ' :: '@' :: ':' :: ("cmd arg").data) [] (("out").data) =
      (true, UpdateEventWithOutput [] (("beta").data) (("out").data)) :=
  empty_tag_broadcast (("beta").data) (("cmd arg").data) (("out").data) (by decide)

theorem isSuf_singleton (c : Char) (l : Str) (h : List.isSuffixOf (c :: []) l = true) :
    l.getLast? = some c := by
  rw [List.isSuffixOf_iff_suffix] at h
  obtain ⟨p, hp⟩ := h
  rw [← hp]
  simp

theorem exec_ne_pending (x : Str) : ("Executed (").data ++ x ≠ ("Pending").data := by
  intro h
  rw [show ("Executed (").data ++ x = 'E' :: (("xecuted (").data ++ x) from rfl,
    show ("Pending").data = 'P' :: ("ending").data from rfl] at h
  injection h with h1 _
  exact absurd h1 (by decide)

/-- C9: ListExecutedHosts returns exactly the host names whose start-marker
line occurs in the description, in encounter order and with no requirement
that a matching end marker be present; and the console's status is the literal
Pending exactly when that list is empty, and otherwise the Executed rendering
with the hosts joined in encounter order. -/
theorem executedHosts_markers (description h : Str) :
    (h ∈ getExecutedHosts description ↔
      (outMark ++ h ++ (']' :: [])) ∈ splitLines description) ∧
    ((listStatus description = ("Pending").data) ↔ getExecutedHosts description = []) ∧
    (listStatus description = if (getExecutedHosts description).isEmpty
      then ("Pending").data
      else ("Executed (").data ++ joinStr (',' :: ' ' :: []) (getExecutedHosts description)
        ++ (')' :: [])) := by
  refine ⟨?_, ?_, ?_⟩
  · unfold getExecutedHosts
    rw [List.mem_filterMap]
    constructor
    · rintro ⟨line, hline, hf⟩
      split at hf
      case isTrue hcond =>
        obtain ⟨hpre, hsuf⟩ := Bool.and_eq_true_iff.mp hcond
        obtain ⟨t, ht⟩ := List.isPrefixOf_iff_prefix.mp hpre
        have htne : t ≠ [] := by
          intro h0
          subst h0
          rw [List.append_nil] at ht
          have := isSuf_singleton ']' line hsuf
          rw [← ht] at this
          exact absurd this (by decide)
        have hlast : t.getLast? = some ']' := by
          have hl := isSuf_singleton ']' line hsuf
          rw [← ht, List.getLast?_append] at hl
          cases hgl : t.getLast? with
          | none => exact absurd (List.getLast?_eq_none_iff.mp hgl) htne
          | some d =>
            rw [hgl] at hl
            simpa using hl
        have hshape : t = t.dropLast ++ (']' :: []) :=
          (List.dropLast_append_getLast? ']' hlast).symm
        have hval : trimSuffixStr (']' :: []) (trimPrefixStr outMark line) = t.dropLast := by
          rw [← ht, trimPrefixStr_append]
          conv_lhs => rw [hshape]
          exact trimSuffixStr_append (']' :: []) t.dropLast
        rw [hval] at hf
        injection hf with hf
        subst hf
        rw [← ht, hshape] at hline
        simpa [List.append_assoc] using hline
      case isFalse => exact absurd hf (by simp)
    · intro hmem
      refine ⟨outMark ++ h ++ (']' :: []), hmem, ?_⟩
      have hpre : List.isPrefixOf outMark (outMark ++ h ++ (']' :: [])) = true := by
        rw [List.append_assoc]
        exact isPre_append outMark _
      have hsuf : List.isSuffixOf (']' :: []) (outMark ++ h ++ (']' :: [])) = true :=
        isSuf_append (']' :: []) (outMark ++ h)
      rw [if_pos (by rw [hpre, hsuf]; rfl)]
      rw [List.append_assoc, trimPrefixStr_append]
      rw [trimSuffixStr_append (']' :: []) h]
  · unfold listStatus
    by_cases hmt : getExecutedHosts description = []
    · simp [hmt]
    · have hlen : (getExecutedHosts description).length > 0 := List.length_pos.mpr hmt
      simp only [hlen, if_pos]
      constructor
      · intro hcontra
        exact absurd (by simp only [List.append_assoc] at hcontra; exact hcontra)
          (exec_ne_pending _)
      · intro h0; exact absurd h0 hmt
  · unfold listStatus
    by_cases hmt : getExecutedHosts description = []
    · simp [hmt]
    · have hlen : (getExecutedHosts description).length > 0 := List.length_pos.mpr hmt
      simp [hmt, hlen, List.isEmpty_iff]

/-- C9 (witness): a description holding one start marker with no matching end
marker still lists that host, and the status renders as Executed. -/
theorem executedHosts_markers_witness :
    ((("a").data ∈ getExecutedHosts (("[OUTPUT-a]\nz").data)) ↔
      (outMark ++ ("a").data ++ (']' :: [])) ∈ splitLines (("[OUTPUT-a]\nz").data)) ∧
    ((listStatus (("[OUTPUT-a]\nz").data) = ("Pending").data) ↔
      getExecutedHosts (("[OUTPUT-a]\nz").data) = []) ∧
    (listStatus (("[OUTPUT-a]\nz").data) =
      if (getExecutedHosts (("[OUTPUT-a]\nz").data)).isEmpty
      then ("Pending").data
      else ("Executed (").data ++
        joinStr (',' :: ' ' :: []) (getExecutedHosts (("[OUTPUT-a]\nz").data)) ++ (')' :: [])) :=
  executedHosts_markers (("[OUTPUT-a]\nz").data) (("a").data)

/-- C8 (counterexample): with two argument tokens the upload command does not
read the file named by the first argument: the source trims and uses the WHOLE
argument string as the path, so against a file system holding only the file
named by one letter a, the argument string made of tokens a and b fails with
an error string while the claim's first-argument reading would succeed. -/
theorem upload_not_first_arg :
    ExecuteCommand gTest (("upload").data) ('a' :: ' ' :: 'b' :: []) =
      ("[Host: h]\nError: no such file").data ∧
    uploadPerClaim gTest ('a' :: ' ' :: 'b' :: []) =
      ("[Host: h]\nFile: a\n[DATA]\naA==\n[/DATA]").data ∧
    ExecuteCommand gTest (("upload").data) ('a' :: ' ' :: 'b' :: []) ≠
      uploadPerClaim gTest ('a' :: ' ' :: 'b' :: []) := by
  refine ⟨by decide, by decide, by decide⟩

/-- C8 (amended): for every local environment and argument string, the upload
command reads the file named by the whitespace-trimmed whole argument string
(which is the first argument exactly when one argument is given): on success
it returns the host line, a File line, and the content base64-encoded between
literal DATA marker lines; on a failed read it returns an error string through
the same output path rather than a distinct error channel. -/
theorem upload_wraps_base64 (g : GuestEnv) (args : Str) :
    (∀ errMsg, g.readFile (trimSpace args) = .inl errMsg →
      ExecuteCommand g (("upload").data) args =
        ("[Host: ").data ++ g.hostname ++ (']' :: '\n' :: []) ++ ("Error: ").data ++ errMsg) ∧
    (∀ content, g.readFile (trimSpace args) = .inr content →
      ExecuteCommand g (("upload").data) args =
        ("[Host: ").data ++ g.hostname ++ (']' :: '\n' :: []) ++ ("File: ").data ++
          trimSpace args ++ ("\n[DATA]\n").data ++ base64Encode content ++
          ("\n[/DATA]").data) := by
  constructor
  · intro errMsg hread
    unfold ExecuteCommand
    rw [if_neg (by decide), if_neg (by decide), if_pos (by decide)]
    simp only [hread]
  · intro content hread
    unfold ExecuteCommand
    rw [if_neg (by decide), if_neg (by decide), if_pos (by decide)]
    simp only [hread]

/-- C8 (witness): uploading the one-byte file named by one letter a yields its
content base64-encoded between the DATA markers. -/
theorem upload_wraps_base64_witness :
    ExecuteCommand gTest (("upload").data) ('a' :: []) =
      ("[Host: ").data ++ gTest.hostname ++ (']' :: '\n' :: []) ++ ("File: ").data ++
        trimSpace ('a' :: []) ++ ("\n[DATA]\n").data ++ base64Encode [104] ++
        ("\n[/DATA]").data :=
  (upload_wraps_base64 gTest ('a' :: [])).2 [104] (by decide)

theorem getLast_of_append_ne (p q : Str) (hq : q ≠ []) (c : Char)
    (hc : (p ++ q).getLast? = some c) : q.getLast? = some c := by
  rw [List.getLast?_append] at hc
  cases hgl : q.getLast? with
  | none => exact absurd (List.getLast?_eq_none_iff.mp hgl) hq
  | some d =>
    rw [hgl] at hc
    simp only [Option.or_some] at hc
    exact hc

theorem splitOnce_cons_at (c : Char) (rest : Str) : splitOnce c (c :: rest) = some ([], rest) := by
  rw [splitOnce, if_pos (by simp)]

theorem splitOnce_cons_ne (sep c : Char) (rest : Str) (h : (c == sep) = false) :
    splitOnce sep (c :: rest) =
      match splitOnce sep rest with
      | none => none
      | some (a, b) => some (c :: a, b) := by
  rw [splitOnce, if_neg (by simp [h])]

/-- C1 (counterexample): encoding the command string made of at-sign, h,
colon, x with no arguments and the Broadcast target produces a summary whose
decode is the record with command x and target Host h — not the original
triple, so the round trip fails for command strings that themselves look like
a target annotation. -/
theorem roundtrip_fails_at_annotation :
    decodeRecord (Encode ('@' :: 'h' :: ':' :: 'x' :: []) [] .Broadcast) =
      some ('x' :: [], [], .Host ('h' :: [])) ∧
    decodeRecord (Encode ('@' :: 'h' :: ':' :: 'x' :: []) [] .Broadcast) ≠
      some ('@' :: 'h' :: ':' :: 'x' :: [], [], .Broadcast) := by
  refine ⟨by decide, by decide⟩

/-- C1 (amended): the command codec round trip holds for every command and
argument list made of non-empty whitespace-free tokens and every target in
the three forms, under the annotation-shaped side conditions the wire format
forces: a Host name is non-empty, not the wildcard star, and contains no
colon; and a Broadcast command line that begins with an at-sign contains no
colon (otherwise the decoder reads it as an annotation, as the counterexample
shows).  Then decoding the encoded summary returns exactly the original
command, arguments and target. -/
theorem roundtrip_decode (command : Str) (args : List Str) (t : TargetSpec)
    (hc : isToken command = true) (ha : ∀ a ∈ args, isToken a = true)
    (hh : hostOkB t = true) (hb : broadcastOkB command args t = true) :
    decodeRecord (Encode command args t) = some (command, args, t) := by
  have htoks : ∀ x ∈ command :: args, isToken x = true := by
    intro x hx
    rcases List.mem_cons.mp hx with h1 | h2
    · exact h1 ▸ hc
    · exact ha x h2
  have hfields : fields (commandText command args) = command :: args := fields_join _ htoks
  obtain ⟨rtail, hshape⟩ := joinStr_cons_shape (' ' :: []) command args
  have hshape' : commandText command args = command ++ rtail := hshape
  have hctne : commandText command args ≠ [] := by
    rw [hshape']
    exact List.append_ne_nil_of_left_ne_nil (isToken_ne_nil command hc) _
  have hclast : ∀ c, (commandText command args).getLast? = some c → isSpace c = false :=
    joinStr_tokens_getLast (command :: args) htoks
  have hchead : ∀ c, (commandText command args).head? = some c → isSpace c = false := by
    intro c hcc
    cases hcmd : command with
    | nil => exact absurd hcmd (isToken_ne_nil command hc)
    | cons c0 cs =>
      have hh0 : (commandText command args).head? = some c0 := by
        rw [hshape', hcmd]
        rfl
      rw [hh0] at hcc
      have hmem : c0 ∈ command := hcmd ▸ List.mem_cons_self c0 cs
      injection hcc with hcc
      rw [← hcc]
      exact isToken_chars command hc c0 hmem
  have hEnc : ∀ rest : Str, Encode command args t = commandMarker ++ ' ' :: rest →
      parseSummary (Encode command args t) = some (parseCommandLine (trimSpace (' ' :: rest))) := by
    intro rest hrest
    rw [hrest]
    unfold parseSummary
    rw [if_pos (isPre_append commandMarker _)]
    rw [show commandMarker ++ ' ' :: rest = commandMarker ++ (' ' :: rest) from rfl,
      trimPrefixStr_append]
  cases t with
  | Broadcast =>
    have hrest : Encode command args .Broadcast =
        commandMarker ++ ' ' :: commandText command args := rfl
    have hps := hEnc (commandText command args) hrest
    rw [trimSpace_space_cons, trimSpace_eq_self _ hchead hclast] at hps
    have hpcl : parseCommandLine (commandText command args) = ([], commandText command args) := by
      unfold parseCommandLine
      by_cases hAt : List.isPrefixOf ('@' :: []) (commandText command args) = true
      · rw [if_pos hAt]
        have hAtc : List.isPrefixOf ('@' :: []) command = true := by
          cases hcmd : command with
          | nil => exact absurd hcmd (isToken_ne_nil command hc)
          | cons c0 cs =>
            rw [hshape', hcmd] at hAt
            simpa [List.isPrefixOf] using hAt
        have hnc : ':' ∉ commandText command args := by
          have hb' := hb
          unfold broadcastOkB at hb'
          rw [hAtc] at hb'
          simpa using hb'
        rw [splitOnce_not_mem ':' _ hnc]
      · rw [if_neg hAt]
    unfold decodeRecord
    rw [hps, hpcl]
    simp [hfields, targetOfHost]
  | Wildcard =>
    have hrest : Encode command args .Wildcard =
        commandMarker ++ ' ' :: ('@' :: '*' :: ':' :: commandText command args) := rfl
    have hps := hEnc _ hrest
    rw [trimSpace_space_cons] at hps
    have htrim : trimSpace ('@' :: '*' :: ':' :: commandText command args) =
        '@' :: '*' :: ':' :: commandText command args := by
      apply trimSpace_eq_self
      · intro c hcc
        injection hcc with hcc
        rw [← hcc]
        decide
      · intro c hcc
        exact hclast c (getLast_of_append_ne ('@' :: '*' :: ':' :: []) _ hctne c hcc)
    rw [htrim] at hps
    have hpcl : parseCommandLine ('@' :: '*' :: ':' :: commandText command args) =
        ('*' :: [], commandText command args) := by
      unfold parseCommandLine
      rw [if_pos (by simp [List.isPrefixOf])]
      rw [splitOnce_cons_ne ':' '@' _ (by decide)]
      rw [splitOnce_cons_ne ':' '*' _ (by decide)]
      rw [splitOnce_cons_at ':' _]
      rfl
    unfold decodeRecord
    rw [hps, hpcl]
    simp [hfields, targetOfHost]
  | Host n =>
    simp only [hostOkB, Bool.and_eq_true, Bool.not_eq_true', beq_eq_false_iff_ne,
      decide_eq_false_iff_not] at hh
    obtain ⟨⟨hn1, hn2⟩, hn3⟩ := hh
    have hrest : Encode command args (.Host n) =
        commandMarker ++ ' ' :: ('@' :: (n ++ ':' :: commandText command args)) := by
      show commandMarker ++ ' ' :: (('@' :: (n ++ (':' :: []))) ++ commandText command args) = _
      simp [List.append_assoc]
    have hps := hEnc _ hrest
    rw [trimSpace_space_cons] at hps
    have htrim : trimSpace ('@' :: (n ++ ':' :: commandText command args)) =
        '@' :: (n ++ ':' :: commandText command args) := by
      apply trimSpace_eq_self
      · intro c hcc
        injection hcc with hcc
        rw [← hcc]
        decide
      · intro c hcc
        have hcc2 : (('@' :: n ++ ':' :: []) ++ commandText command args).getLast? = some c := by
          simpa [List.append_assoc] using hcc
        exact hclast c (getLast_of_append_ne _ _ hctne c hcc2)
    rw [htrim] at hps
    have hpcl : parseCommandLine ('@' :: (n ++ ':' :: commandText command args)) =
        (n, commandText command args) := by
      unfold parseCommandLine
      rw [if_pos (by simp [List.isPrefixOf])]
      rw [splitOnce_cons_ne ':' '@' _ (by decide)]
      rw [splitOnce_append ':' n _ hn3]
      have htp : trimPrefixStr ('@' :: []) ('@' :: n) = n := by
        unfold trimPrefixStr
        rw [if_pos (by simp [List.isPrefixOf])]
        rfl
      simp [htp]
    unfold decodeRecord
    rw [hps, hpcl]
    have hth : targetOfHost n = .Host n := by
      unfold targetOfHost
      rw [if_neg (by simp [hn1]), if_neg (by simp [hn2])]
    simp [hfields, hth]

/-- C1 (witness): the command ls with argument -la targeted at host alpha
round trips through the summary codec. -/
theorem roundtrip_decode_witness :
    decodeRecord (Encode (("ls").data) [("-la").data] (.Host (("alpha").data))) =
      some ((("ls").data), [("-la").data], .Host (("alpha").data)) :=
  roundtrip_decode (("ls").data) [("-la").data] (.Host (("alpha").data))
    (by decide) (by decide) (by decide) (by decide)
